import Mathlib

/-!
Verification of the `trendt-bencode` crate (and its `trendt-torrent` consumer)
against its natural-language specification.

Bytes are modelled as `Nat` (the u8 values), buffers as `List Nat`.  The Rust
`Decoder` owns `(input, position)` and the position only increases; we model a
cursor as the remaining suffix of the input, so "consumed the whole buffer"
becomes "the returned rest is `[]`".  Machine integers are modelled as
`Int`/`Nat` with explicit range checks (`i64` parsing fails outside
`[-2^63, 2^63-1]`, `usize` parsing fails at `2^64`), and `as`-casts as
`emod` arithmetic.  Fallible Rust functions returning `Result` are modelled
with `Except Err` (non-recursive scalars) or the fuelled result type `DRes`
(recursive value decoding); fuel exhaustion is a distinct `DRes.out` outcome
that the top-level entry points avoid by supplying `2 * input.length + 1`
fuel, and `DRes.panicked` marks a Rust `todo!()`/panic.
-/

namespace Trendt

/-- Error taxonomy, translated from `error.rs` (`enum Error`). -/
inductive Err where
  | UnexpectedEof : Err
  | InvalidCharacter (b : Nat) : Err
  | InvalidInteger : Err
  | InvalidDictKey : Err
  | UnsortedDictKeys : Err
  | Message (s : String) : Err
deriving DecidableEq, Repr

/-- Result of a fuelled decoding function: success, an `Error` returned to the
caller, fuel exhaustion (an artifact of the embedding, never reached by the
top-level entry points), or a Rust panic (`todo!()`). -/
inductive DRes (α : Type) where
  | ok (a : α) : DRes α
  | err (e : Err) : DRes α
  | out : DRes α
  | panicked : DRes α
deriving DecidableEq, Repr

/-- ASCII digit test, translating `u8::is_ascii_digit`. -/
def isDigit (b : Nat) : Bool := 48 ≤ b && b ≤ 57

/-- MSB-first decimal digits (ASCII codes) of a natural number, with no
leading zeros; translates `usize::to_string` / the digits of `i64::to_string`. -/
def natToDec (n : Nat) : List Nat :=
  if h : n < 10 then [n + 48]
  else natToDec (n / 10) ++ [n % 10 + 48]
termination_by n
decreasing_by
  exact Nat.div_lt_self (by omega) (by omega)

/-- Decimal ASCII rendering of a signed integer, translating `i64::to_string`. -/
def intToDec (n : Int) : List Nat :=
  if n < 0 then 45 :: natToDec n.natAbs else natToDec n.toNat

/-- Numeric value of an MSB-first list of ASCII digit codes. -/
def digitsToNat (l : List Nat) : Nat :=
  l.foldl (fun acc d => acc * 10 + (d - 48)) 0

/-- Lower bound of `i64`. -/
def i64min : Int := -(2 ^ 63)

/-- Upper bound of `i64`. -/
def i64max : Int := 2 ^ 63 - 1

/-- Exclusive upper bound of `usize` (64-bit). -/
def usizeLim : Nat := 2 ^ 64

/-- Translation of Rust `str::parse::<i64>` on a byte slice: an optional sign
(`+` or `-`) followed by at least one ASCII digit, failing on overflow.
Bytes that are not valid UTF-8 are never all ASCII digits, so the source's
separate `from_utf8` failure (mapped to the same error by the callers) is
absorbed into the `none` result. -/
def parseI64 (bs : List Nat) : Option Int :=
  match bs with
  | [] => none
  | b :: rest =>
    let neg : Bool := b = 45
    let digits := if b = 45 || b = 43 then rest else bs
    if digits ≠ [] ∧ digits.all isDigit then
      let v : Int := if neg then -(digitsToNat digits : Int) else (digitsToNat digits : Int)
      if i64min ≤ v ∧ v ≤ i64max then some v else none
    else none

/-- Translation of Rust `str::parse::<usize>` on a byte slice: an optional
leading `+` followed by at least one ASCII digit, failing at `2^64`. -/
def parseUsize (bs : List Nat) : Option Nat :=
  let digits := match bs with
    | b :: rest => if b = 43 then rest else bs
    | [] => []
  if digits ≠ [] ∧ digits.all isDigit then
    let n := digitsToNat digits
    if n < usizeLim then some n else none
  else none

/-- Translation of the scan loop of `Decoder::decode_integer`: consume bytes
until the first `e` (0x65); `none` models the `UnexpectedEof` of running off
the buffer.  Returns the scanned prefix and the rest starting at the `e`. -/
def scanUntilE : List Nat → Option (List Nat × List Nat)
  | [] => none
  | b :: bs =>
    if b = 101 then some ([], b :: bs)
    else
      match scanUntilE bs with
      | none => none
      | some (pre, rest) => some (b :: pre, rest)

/-- Translation of the scan loop of `Deserializer::parse_byte_string`: consume
bytes until the first `:` (0x3a), with no digit check (de.rs has none). -/
def scanUntilColon : List Nat → Option (List Nat × List Nat)
  | [] => none
  | b :: bs =>
    if b = 58 then some ([], b :: bs)
    else
      match scanUntilColon bs with
      | none => none
      | some (pre, rest) => some (b :: pre, rest)

/-- Translation of the scan loop of `Decoder::decode_byte_string`: consume
bytes until the first `:`, rejecting any non-digit with `InvalidCharacter`. -/
def scanLenDigits : List Nat → Except Err (List Nat × List Nat)
  | [] => .error .UnexpectedEof
  | b :: bs =>
    if b = 58 then .ok ([], b :: bs)
    else if isDigit b then
      match scanLenDigits bs with
      | .error e => .error e
      | .ok (pre, rest) => .ok (b :: pre, rest)
    else .error (.InvalidCharacter b)

/-- Translation of `Decoder::decode_integer` (decode.rs): expect `i`, scan the
digit run up to `e`, parse as `i64` (`InvalidInteger` on failure), reject a
leading zero (except the bare `0`) and `-0`, then consume the closing `e`.
The cursor is the remaining suffix of the input. -/
def decode_integer (input : List Nat) : Except Err (Int × List Nat) :=
  match input with
  | [] => .error .UnexpectedEof
  | b :: rest =>
    if b = 105 then
      match scanUntilE rest with
      | none => .error .UnexpectedEof
      | some (digits, restAtE) =>
        match parseI64 digits with
        | none => .error .InvalidInteger
        | some n =>
          if digits.length > 1 ∧ digits.head? = some 48 then .error .InvalidInteger
          else if digits = [45, 48] then .error .InvalidInteger
          else
            match restAtE with
            | [] => .error .UnexpectedEof
            | c :: tl => if c = 101 then .ok (n, tl) else .error (.InvalidCharacter c)
    else .error (.InvalidCharacter b)

/-- Translation of `Decoder::decode_byte_string` (decode.rs): scan decimal
length digits up to `:` (rejecting non-digits), parse the length as `usize`
(`InvalidCharacter 0` on failure, as the source maps both the UTF-8 and the
parse failure), consume the `:`, then take exactly `length` raw bytes,
`UnexpectedEof` if the buffer is short. -/
def decode_byte_string (input : List Nat) : Except Err (List Nat × List Nat) :=
  match scanLenDigits input with
  | .error e => .error e
  | .ok (lenDigits, rest) =>
    match parseUsize lenDigits with
    | none => .error (.InvalidCharacter 0)
    | some len =>
      match rest with
      | [] => .error .UnexpectedEof
      | c :: tl =>
        if c = 58 then
          if len ≤ tl.length then .ok (tl.take len, tl.drop len)
          else .error .UnexpectedEof
        else .error (.InvalidCharacter c)

/-- The bencode value model, translated from `value.rs` (`enum Value`).
`Dict` carries the `BTreeMap<Vec<u8>, Value>` as its association list in
ascending key order (the order the map iterates in). -/
inductive Value where
  | Integer (n : Int) : Value
  | ByteString (bs : List Nat) : Value
  | List (items : List Value) : Value
  | Dict (entries : List (List Nat × Value)) : Value

/-- Strict byte-lexicographic order on byte sequences, translating
`Ord for Vec<u8>` (`a.cmp(b) == Less`): shorter prefix first on ties. -/
def byteLexLt : List Nat → List Nat → Bool
  | [], [] => false
  | [], _ :: _ => true
  | _ :: _, [] => false
  | a :: as_, b :: bs =>
    if a < b then true
    else if b < a then false
    else byteLexLt as_ bs

/-- Keys of a dictionary tail are strictly ascending, each also strictly
above the optional previous key. -/
def keysAsc : Option (List Nat) → List (List Nat × Value) → Bool
  | _, [] => true
  | none, (k, _) :: es => keysAsc (some k) es
  | some p, (k, _) :: es => byteLexLt p k && keysAsc (some k) es

mutual
/-- A `Value` representable by the Rust types: `i64`-range integers, byte
strings of `u8`s with a `usize` length, and dictionaries whose `BTreeMap`
association list is strictly ascending.  These side conditions are exactly
what the Rust types `i64`, `Vec<u8>` and `BTreeMap` guarantee structurally. -/
def legalVal : Value → Bool
  | .Integer n => decide (i64min ≤ n) && decide (n ≤ i64max)
  | .ByteString bs => decide (bs.length < usizeLim) && bs.all (fun b => decide (b < 256))
  | .List items => legalList items
  | .Dict entries => keysAsc none entries && legalEntries entries

/-- All members of a list of values are legal. -/
def legalList : List Value → Bool
  | [] => true
  | v :: vs => legalVal v && legalList vs

/-- All keys are legal byte strings and all values legal. -/
def legalEntries : List (List Nat × Value) → Bool
  | [] => true
  | (k, v) :: es =>
    decide (k.length < usizeLim) && k.all (fun b => decide (b < 256))
      && legalVal v && legalEntries es
end

/-- Translation of `encode_byte_string` (encode.rs): decimal length, `:`,
then the raw bytes. -/
def encode_byte_string (bs : List Nat) : List Nat :=
  natToDec bs.length ++ 58 :: bs

mutual
/-- Translation of `encode_value` (encode.rs), with the output buffer made
explicit as the returned byte list. -/
def encode_value : Value → List Nat
  | .Integer n => 105 :: intToDec n ++ [101]
  | .ByteString bs => encode_byte_string bs
  | .List items => 108 :: encode_items items ++ [101]
  | .Dict entries => 100 :: encode_entries entries ++ [101]

/-- The body of `encode_list`'s loop: items in order. -/
def encode_items : List Value → List Nat
  | [] => []
  | v :: vs => encode_value v ++ encode_items vs

/-- The body of `encode_dict`'s loop: `BTreeMap` iteration emits the
association list in ascending key order, each entry as key string then value. -/
def encode_entries : List (List Nat × Value) → List Nat
  | [] => []
  | (k, v) :: es => encode_byte_string k ++ encode_value v ++ encode_entries es
end

/-- Translation of `encode` (encode.rs). -/
def encode (v : Value) : List Nat := encode_value v

/-- True when the previous dictionary key (if any) is strictly below `key`. -/
def keyOk (prev : Option (List Nat)) (key : List Nat) : Bool :=
  match prev with
  | none => true
  | some p => byteLexLt p key

mutual
/-- Translation of `Decoder::decode_value` (decode.rs): dispatch on the
lookahead byte (`i` integer, `l` list, `d` dictionary, ASCII digit byte
string, otherwise `InvalidCharacter`).  The `expect(b'l')` / `expect(b'd')`
at the head of `decode_list` / `decode_dict` is fused into the dispatch,
which consumes the opener before entering the entry loop.  `fuel` only
bounds the recursion depth of the embedding; `decode_top` supplies enough
fuel that `DRes.out` is unreachable. -/
def decode_value (fuel : Nat) (input : List Nat) : DRes (Value × List Nat) :=
  match fuel with
  | 0 => .out
  | f + 1 =>
    match input with
    | [] => .err .UnexpectedEof
    | b :: rest =>
      if b = 105 then
        match decode_integer input with
        | .ok (n, r) => .ok (.Integer n, r)
        | .error e => .err e
      else if b = 108 then decode_list_items f rest []
      else if b = 100 then decode_dict_entries f rest [] none
      else if isDigit b then
        match decode_byte_string input with
        | .ok (bs, r) => .ok (.ByteString bs, r)
        | .error e => .err e
      else .err (.InvalidCharacter b)

/-- Translation of the loop of `Decoder::decode_list` (decode.rs): read
values until the terminator `e`, then consume it. -/
def decode_list_items (fuel : Nat) (input : List Nat) (acc : List Value) :
    DRes (Value × List Nat) :=
  match fuel with
  | 0 => .out
  | f + 1 =>
    match input with
    | [] => .err .UnexpectedEof
    | b :: rest =>
      if b = 101 then .ok (.List acc.reverse, rest)
      else
        match decode_value f (b :: rest) with
        | .ok (v, r2) => decode_list_items f r2 (v :: acc)
        | .err e => .err e
        | .out => .out
        | .panicked => .panicked

/-- Modelled from the spec: the body of `Decoder::decode_dict` is missing
from the source (`todo!()`), so the entry loop follows spec section 4.1:
consume `(key, value)` pairs until the terminator; a key whose lookahead is
not a byte string is `InvalidDictKey`; each key must compare strictly
greater than the previous key in byte-lexicographic order
(`UnsortedDictKeys` otherwise); entries are inserted into the `BTreeMap`,
which (keys being strictly ascending) is the accumulated list itself. -/
def decode_dict_entries (fuel : Nat) (input : List Nat)
    (acc : List (List Nat × Value)) (prev : Option (List Nat)) :
    DRes (Value × List Nat) :=
  match fuel with
  | 0 => .out
  | f + 1 =>
    match input with
    | [] => .err .UnexpectedEof
    | b :: rest =>
      if b = 101 then .ok (.Dict acc.reverse, rest)
      else if isDigit b then
        match decode_byte_string (b :: rest) with
        | .error e => .err e
        | .ok (key, r2) =>
          if keyOk prev key then
            match decode_value f r2 with
            | .ok (v, r3) => decode_dict_entries f r3 ((key, v) :: acc) (some key)
            | .err e => .err e
            | .out => .out
            | .panicked => .panicked
          else .err .UnsortedDictKeys
      else .err .InvalidDictKey
end

/-- Entry point for raw decoding: `Decoder::new(input).decode_value()`, with
fuel ample for the recursion depth (each nesting level consumes at least one
input byte and at most two fuel units). -/
def decode_top (input : List Nat) : DRes (Value × List Nat) :=
  decode_value (2 * input.length + 1) input

/-- Bytes of an ASCII string literal, for readability of concrete inputs. -/
def strBytes (s : String) : List Nat := s.toList.map Char.toNat

/-- Translation of `Decoder::decode_value` exactly as written in decode.rs,
where the body of `Decoder::decode_dict` is literally `todo!()`: reaching the
`d` branch executes the `todo!()` macro, which panics. -/
def decode_value_src (fuel : Nat) (input : List Nat) : DRes (Value × List Nat) :=
  match fuel with
  | 0 => .out
  | f + 1 =>
    match input with
    | [] => .err .UnexpectedEof
    | b :: rest =>
      if b = 105 then
        match decode_integer input with
        | .ok (n, r) => .ok (.Integer n, r)
        | .error e => .err e
      else if b = 108 then decode_list_items_src f rest []
      else if b = 100 then .panicked
      else if isDigit b then
        match decode_byte_string input with
        | .ok (bs, r) => .ok (.ByteString bs, r)
        | .error e => .err e
      else .err (.InvalidCharacter b)
where
  /-- The list loop of the source decoder, recursing into `decode_value_src`. -/
  decode_list_items_src (fuel : Nat) (input : List Nat) (acc : List Value) :
      DRes (Value × List Nat) :=
    match fuel with
    | 0 => .out
    | f + 1 =>
      match input with
      | [] => .err .UnexpectedEof
      | b :: rest =>
        if b = 101 then .ok (.List acc.reverse, rest)
        else
          match decode_value_src f (b :: rest) with
          | .ok (v, r2) => decode_list_items_src f r2 (v :: acc)
          | .err e => .err e
          | .out => .out
          | .panicked => .panicked

/-- Translation of `Deserializer::parse_integer` (de.rs): expect `i`, scan up
to `e`, parse as `i64` (`InvalidInteger` on failure), consume the `e`.
Unlike `Decoder::decode_integer`, there is no leading-zero or `-0` check. -/
def parse_integer (input : List Nat) : Except Err (Int × List Nat) :=
  match input with
  | [] => .error .UnexpectedEof
  | b :: rest =>
    if b = 105 then
      match scanUntilE rest with
      | none => .error .UnexpectedEof
      | some (digits, restAtE) =>
        match parseI64 digits with
        | none => .error .InvalidInteger
        | some n =>
          match restAtE with
          | [] => .error .UnexpectedEof
          | c :: tl => if c = 101 then .ok (n, tl) else .error (.InvalidCharacter c)
    else .error (.InvalidCharacter b)

/-- Translation of `Deserializer::parse_byte_string` (de.rs): scan up to `:`
with no digit check, parse the length as `usize` (`InvalidCharacter 0` on a
UTF-8 or parse failure), consume the `:`, take `len` bytes. -/
def parse_byte_string (input : List Nat) : Except Err (List Nat × List Nat) :=
  match scanUntilColon input with
  | none => .error .UnexpectedEof
  | some (lenBytes, rest) =>
    match parseUsize lenBytes with
    | none => .error (.InvalidCharacter 0)
    | some len =>
      match rest with
      | [] => .error .UnexpectedEof
      | c :: tl =>
        if c = 58 then
          if len ≤ tl.length then .ok (tl.take len, tl.drop len)
          else .error .UnexpectedEof
        else .error (.InvalidCharacter c)

/-- Rust `as u8` on an `i64`: truncate to the low 8 bits, unsigned. -/
def castU8 (n : Int) : Nat := (n.emod 256).toNat

/-- Rust `as u16` on an `i64`. -/
def castU16 (n : Int) : Nat := (n.emod (2 ^ 16)).toNat

/-- Rust `as u32` on an `i64`. -/
def castU32 (n : Int) : Nat := (n.emod (2 ^ 32)).toNat

/-- Rust `as u64` on an `i64`: the value modulo `2^64` (sign reinterpreted). -/
def castU64 (n : Int) : Nat := (n.emod (2 ^ 64)).toNat

/-- Rust `as i8` on an `i64`: two's-complement truncation to 8 bits. -/
def castI8 (n : Int) : Int := (n + 2 ^ 7).emod (2 ^ 8) - 2 ^ 7

/-- Rust `as i16` on an `i64`. -/
def castI16 (n : Int) : Int := (n + 2 ^ 15).emod (2 ^ 16) - 2 ^ 15

/-- Rust `as i32` on an `i64`. -/
def castI32 (n : Int) : Int := (n + 2 ^ 31).emod (2 ^ 32) - 2 ^ 31

/-- Translation of `Deserializer::deserialize_u8` (de.rs):
`visitor.visit_u8(self.parse_integer()? as u8)`; the visitor receives the
truncated value, modelled as the returned number. -/
def deserialize_u8 (input : List Nat) : Except Err (Nat × List Nat) :=
  match parse_integer input with
  | .ok (n, r) => .ok (castU8 n, r)
  | .error e => .error e

/-- Translation of `Deserializer::deserialize_u16` (de.rs). -/
def deserialize_u16 (input : List Nat) : Except Err (Nat × List Nat) :=
  match parse_integer input with
  | .ok (n, r) => .ok (castU16 n, r)
  | .error e => .error e

/-- Translation of `Deserializer::deserialize_u32` (de.rs). -/
def deserialize_u32 (input : List Nat) : Except Err (Nat × List Nat) :=
  match parse_integer input with
  | .ok (n, r) => .ok (castU32 n, r)
  | .error e => .error e

/-- Translation of `Deserializer::deserialize_u64` (de.rs). -/
def deserialize_u64 (input : List Nat) : Except Err (Nat × List Nat) :=
  match parse_integer input with
  | .ok (n, r) => .ok (castU64 n, r)
  | .error e => .error e

/-- Translation of `Deserializer::deserialize_i8` (de.rs). -/
def deserialize_i8 (input : List Nat) : Except Err (Int × List Nat) :=
  match parse_integer input with
  | .ok (n, r) => .ok (castI8 n, r)
  | .error e => .error e

/-- Translation of `Deserializer::deserialize_i16` (de.rs). -/
def deserialize_i16 (input : List Nat) : Except Err (Int × List Nat) :=
  match parse_integer input with
  | .ok (n, r) => .ok (castI16 n, r)
  | .error e => .error e

/-- Translation of `Deserializer::deserialize_i32` (de.rs). -/
def deserialize_i32 (input : List Nat) : Except Err (Int × List Nat) :=
  match parse_integer input with
  | .ok (n, r) => .ok (castI32 n, r)
  | .error e => .error e

/-- Translation of `Deserializer::deserialize_f32` / `deserialize_f64`
(de.rs): both fail immediately, before reading the input. -/
def deserialize_float (_input : List Nat) : Except Err (Unit × List Nat) :=
  .error (.Message "bencode does not support floats")

/-- Translation of `Deserializer::deserialize_enum` (de.rs): fails
immediately, before reading the input. -/
def deserialize_enum (_input : List Nat) : Except Err (Unit × List Nat) :=
  .error (.Message "bencode does not support enums")

/-- The shapes a serde `Serialize` implementation can present to the
serializer of ser.rs, one constructor per serializer entry point exercised:
integers (`serialize_i64`, where the narrower `serialize_i8`..`serialize_u32`
funnel after a widening cast), byte strings (`serialize_str` /
`serialize_bytes`), sequences (`serialize_seq`), records whose derived
`Serialize` calls `serialize_field(name, value)` once per field in
declaration order (`serialize_struct`), options (`serialize_none` /
`serialize_some`), unit (`serialize_unit`), floats (`serialize_f32` /
`serialize_f64`, which ignore the value; it is carried as its bit pattern)
and enum variants (`serialize_*_variant`, which ignore the variant; it is
carried as a tag and name). -/
inductive SerValue where
  | int (n : Int) : SerValue
  | bytes (bs : List Nat) : SerValue
  | seq (items : List SerValue) : SerValue
  | strct (fields : List (List Nat × SerValue)) : SerValue
  | optNone : SerValue
  | optSome (v : SerValue) : SerValue
  | unit : SerValue
  | float (isDouble : Bool) (bits : Nat) : SerValue
  | enumVariant (kind : Nat) (name : List Nat) : SerValue

/-- Translation of `Serializer::serialize_i64` (ser.rs). -/
def serialize_i64 (n : Int) : List Nat := 105 :: intToDec n ++ [101]

/-- Translation of `Serializer::serialize_bytes` (ser.rs). -/
def serialize_bytes (bs : List Nat) : List Nat := natToDec bs.length ++ 58 :: bs

/-- The staging state of `SortedMapSerializer` (ser.rs): accumulated
`(key bytes, fully-encoded value bytes)` pairs plus the pending key. -/
structure SortedMapSerializer where
  entries : List (List Nat × List Nat)
  current_key : Option (List Nat)
deriving DecidableEq, Repr

/-- Translation of `entries.sort_by(|a, b| a.0.cmp(&b.0))` (ser.rs): a stable
sort by byte-lexicographic comparison of the key bytes, realised as insertion
sort (an element moves left only past strictly greater keys). -/
def insertByKey (p : List Nat × List Nat) :
    List (List Nat × List Nat) → List (List Nat × List Nat)
  | [] => [p]
  | q :: qs => if byteLexLt q.1 p.1 then q :: insertByKey p qs else p :: q :: qs

/-- Stable sort of the staged entries by key bytes. -/
def sortByKey : List (List Nat × List Nat) → List (List Nat × List Nat)
  | [] => []
  | p :: ps => insertByKey p (sortByKey ps)

/-- The flush loop of `SortedMapSerializer::end` (ser.rs): key bytes then
value bytes, per entry. -/
def flattenEntries : List (List Nat × List Nat) → List Nat
  | [] => []
  | (k, v) :: es => k ++ v ++ flattenEntries es

mutual
/-- Translation of `value.serialize(&mut Serializer)` (ser.rs), with the sink
made explicit as the returned byte list: scalars are written immediately;
sequences write `l`, the elements, `e`; a struct stages each field in an
isolated buffer via `SortedMapSerializer` and, on `end`, writes `d`, the
entries sorted by key bytes, `e`; `none` and unit write nothing; floats and
enum variants fail with the fixed unsupported errors. -/
def serialize : SerValue → Except Err (List Nat)
  | .int n => .ok (serialize_i64 n)
  | .bytes bs => .ok (serialize_bytes bs)
  | .seq items =>
    match serializeSeqElems items with
    | .ok body => .ok (108 :: body ++ [101])
    | .error e => .error e
  | .strct fields =>
    match serializeFields fields ⟨[], none⟩ with
    | .ok st => .ok (100 :: flattenEntries (sortByKey st.entries) ++ [101])
    | .error e => .error e
  | .optNone => .ok []
  | .optSome v => serialize v
  | .unit => .ok []
  | .float _ _ => .error (.Message "bencode does not support floats")
  | .enumVariant _ _ => .error (.Message "bencode does not support enums")

/-- The element loop of `SerializeSeq` (ser.rs): each element is serialized
in order into the sink. -/
def serializeSeqElems : List SerValue → Except Err (List Nat)
  | [] => .ok []
  | v :: vs =>
    match serialize v with
    | .error e => .error e
    | .ok b =>
      match serializeSeqElems vs with
      | .error e => .error e
      | .ok bs => .ok (b ++ bs)

/-- Translation of `SerializeStruct::serialize_field` iterated over the
declared fields (the derived `Serialize` calls it once per field, in
declaration order): the key (a `&str`) is serialized into an isolated buffer
(reaching `serialize_bytes`), the value into its own isolated buffer, and the
pair is appended to the staged entries. -/
def serializeFields : List (List Nat × SerValue) → SortedMapSerializer →
    Except Err SortedMapSerializer
  | [], st => .ok st
  | (k, v) :: fs, st =>
    match serialize v with
    | .error e => .error e
    | .ok vb => serializeFields fs ⟨st.entries ++ [(serialize_bytes k, vb)], none⟩
end

/-- Translation of `to_bytes` (ser.rs): serialize into a fresh sink and
return its buffer. -/
def to_bytes (v : SerValue) : Except Err (List Nat) := serialize v

/-- Translation of `SerializeMap::serialize_key` (ser.rs): serialize the key
into a fresh buffer and store it as the pending key.  A key already pending
is overwritten without any check. -/
def SortedMapSerializer.serialize_key (st : SortedMapSerializer) (key : SerValue) :
    Except Err SortedMapSerializer :=
  match serialize key with
  | .error e => .error e
  | .ok kb => .ok ⟨st.entries, some kb⟩

/-- Translation of `SerializeMap::serialize_value` (ser.rs): take the pending
key (error if there is none), serialize the value into a fresh buffer, and
push the pair. -/
def SortedMapSerializer.serialize_value (st : SortedMapSerializer) (v : SerValue) :
    Except Err SortedMapSerializer :=
  match st.current_key with
  | none => .error (.Message "serialize_value called before serialize_key")
  | some kb =>
    match serialize v with
    | .error e => .error e
    | .ok vb => .ok ⟨st.entries ++ [(kb, vb)], none⟩

/-- Translation of `SortedMapSerializer::end` (ser.rs): write `d`, the staged
entries sorted by key bytes, then `e`. -/
def SortedMapSerializer.mapEnd (st : SortedMapSerializer) : List Nat :=
  100 :: flattenEntries (sortByKey st.entries) ++ [101]

mutual
/-- Translation of `deserialize_ignored_any` driving `deserialize_any`
(de.rs) with a discarding visitor: dispatch on the lookahead byte and consume
exactly one value, returning the rest of the input.  Fuelled like
`decode_value`. -/
def skip_any (fuel : Nat) (input : List Nat) : DRes (List Nat) :=
  match fuel with
  | 0 => .out
  | f + 1 =>
    match input with
    | [] => .err .UnexpectedEof
    | b :: rest =>
      if b = 105 then
        match parse_integer input with
        | .ok (_, r) => .ok r
        | .error e => .err e
      else if b = 108 then skip_list f rest
      else if b = 100 then skip_map f rest
      else if isDigit b then
        match parse_byte_string input with
        | .ok (_, r) => .ok r
        | .error e => .err e
      else .err (.InvalidCharacter b)

/-- The `SeqAccess` loop of `deserialize_seq` (de.rs) with a discarding
element seed: elements until the `e`, which `deserialize_seq` then consumes. -/
def skip_list (fuel : Nat) (input : List Nat) : DRes (List Nat) :=
  match fuel with
  | 0 => .out
  | f + 1 =>
    match input with
    | [] => .err .UnexpectedEof
    | b :: rest =>
      if b = 101 then .ok rest
      else
        match skip_any f (b :: rest) with
        | .ok r => skip_list f r
        | .err e => .err e
        | .out => .out
        | .panicked => .panicked

/-- The `MapAccess` loop of `deserialize_map` (de.rs) with discarding seeds:
key then value as arbitrary values until the `e`; no key-ordering check is
performed on this path. -/
def skip_map (fuel : Nat) (input : List Nat) : DRes (List Nat) :=
  match fuel with
  | 0 => .out
  | f + 1 =>
    match input with
    | [] => .err .UnexpectedEof
    | b :: rest =>
      if b = 101 then .ok rest
      else
        match skip_any f (b :: rest) with
        | .ok r =>
          match skip_any f r with
          | .ok r2 => skip_map f r2
          | .err e => .err e
          | .out => .out
          | .panicked => .panicked
        | .err e => .err e
        | .out => .out
        | .panicked => .panicked
end

/-- Modelled from the spec: the derived `Deserialize` impl for a record
`{ a : i64, c : Option<i64> }` is generated by serde (not part of this
repository's sources), so its field walk follows spec section 4.2: "a record
is reconstructed by walking its dictionary, matching known field names,
leaving unknown keys ignored; an optional field absent from the dictionary
resolves to no value rather than erroring; a required field absent is
`Message`/'missing field' at the typed layer".  Keys arrive through
`Deserializer::parse_byte_string`, values through `parse_integer`
(`deserialize_option` forwards to the value deserializer via `visit_some`,
de.rs line 159), unknown values through `skip_any`; a duplicate field is the
generated "duplicate field" error.  The second component of the result
tracks the optional field: `none` when the key never appeared. -/
def decode_record_fields (fuel : Nat) (input : List Nat)
    (a : Option Int) (c : Option (Option Int)) :
    DRes ((Int × Option Int) × List Nat) :=
  match fuel with
  | 0 => .out
  | f + 1 =>
    match input with
    | [] => .err .UnexpectedEof
    | b :: rest =>
      if b = 101 then
        match a with
        | none => .err (.Message "missing field a")
        | some av => .ok ((av, match c with | some cv => cv | none => none), rest)
      else
        match parse_byte_string (b :: rest) with
        | .error e => .err e
        | .ok (key, r2) =>
          if key = [97] then
            match a with
            | some _ => .err (.Message "duplicate field a")
            | none =>
              match parse_integer r2 with
              | .error e => .err e
              | .ok (n, r3) => decode_record_fields f r3 (some n) c
          else if key = [99] then
            match c with
            | some _ => .err (.Message "duplicate field c")
            | none =>
              match parse_integer r2 with
              | .error e => .err e
              | .ok (n, r3) => decode_record_fields f r3 a (some (some n))
          else
            match skip_any f r2 with
            | .ok r3 => decode_record_fields f r3 a c
            | .err e => .err e
            | .out => .out
            | .panicked => .panicked

/-- Modelled from the spec: `from_bytes::<Record>` for the record
`{ a : i64, c : Option<i64> }` — `deserialize_struct` forwards to
`deserialize_map` (de.rs line 216), which expects `d`, walks the entries,
then consumes the closing `e` (already consumed by the field walk here). -/
def decode_record (input : List Nat) : DRes ((Int × Option Int) × List Nat) :=
  match input with
  | [] => .err .UnexpectedEof
  | b :: rest =>
    if b = 100 then decode_record_fields (2 * input.length + 1) rest none none
    else .err (.InvalidCharacter b)

/-- Adjacent staged entries are in ascending (non-descending) byte-lex key
order: no key compares strictly below its predecessor. -/
def ascByKey : List (List Nat × List Nat) → Bool
  | [] => true
  | [_] => true
  | p :: q :: rest => !byteLexLt q.1 p.1 && ascByKey (q :: rest)

/-- Decidable equality for `Except`, used to settle concrete codec results
by evaluation. -/
instance exceptDecEq {e a : Type} [DecidableEq e] [DecidableEq a] :
    DecidableEq (Except e a) := fun x y =>
  match x, y with
  | .ok v, .ok w =>
    if h : v = w then .isTrue (by rw [h])
    else .isFalse (fun hc => h (Except.ok.inj hc))
  | .error v, .error w =>
    if h : v = w then .isTrue (by rw [h])
    else .isFalse (fun hc => h (Except.error.inj hc))
  | .ok _, .error _ => .isFalse (fun hc => Except.noConfusion hc)
  | .error _, .ok _ => .isFalse (fun hc => Except.noConfusion hc)

theorem natToDec_all_digit (n : Nat) : ∀ b ∈ natToDec n, isDigit b = true := by
  induction n using Nat.strong_induction_on with
  | _ n ih =>
    rw [natToDec]
    split
    · intro b hb
      simp only [List.mem_singleton] at hb
      subst hb
      simp only [isDigit, Bool.and_eq_true, decide_eq_true_eq]
      omega
    · intro b hb
      rw [List.mem_append] at hb
      rcases hb with hb | hb
      · exact ih (n / 10) (Nat.div_lt_self (by omega) (by omega)) b hb
      · simp only [List.mem_singleton] at hb
        subst hb
        simp only [isDigit, Bool.and_eq_true, decide_eq_true_eq]
        omega

theorem natToDec_ne_nil (n : Nat) : natToDec n ≠ [] := by
  rw [natToDec]
  split
  · simp
  · simp

theorem natToDec_head_pos (n : Nat) (hn : 0 < n) :
    ∀ b, (natToDec n).head? = some b → 48 < b := by
  induction n using Nat.strong_induction_on with
  | _ n ih =>
    rw [natToDec]
    split
    · intro b hb
      simp only [List.head?_cons, Option.some.injEq] at hb
      omega
    · intro b hb
      rw [List.head?_append_of_ne_nil _ (natToDec_ne_nil (n / 10))] at hb
      exact ih (n / 10) (Nat.div_lt_self (by omega) (by omega)) (by omega) b hb

theorem digitsToNat_aux (n : Nat) :
    ∀ acc, (natToDec n).foldl (fun a d => a * 10 + (d - 48)) acc =
      acc * 10 ^ (natToDec n).length + n := by
  induction n using Nat.strong_induction_on with
  | _ n ih =>
    intro acc
    rw [natToDec]
    split
    · simp only [List.foldl_cons, List.foldl_nil, List.length_singleton]
      omega
    · rw [List.foldl_append, List.length_append,
        ih (n / 10) (Nat.div_lt_self (by omega) (by omega)) acc]
      simp only [List.foldl_cons, List.foldl_nil, List.length_singleton, pow_succ]
      have h10 : n / 10 * 10 + n % 10 = n := by omega
      have : n % 10 + 48 - 48 = n % 10 := by omega
      rw [this]
      ring_nf
      omega

theorem digitsToNat_natToDec (n : Nat) : digitsToNat (natToDec n) = n := by
  simp [digitsToNat, digitsToNat_aux n 0]

theorem natToDec_eq_singleton_zero (n : Nat) (h : natToDec n = [48]) : n = 0 := by
  have := digitsToNat_natToDec n
  rw [h] at this
  simpa [digitsToNat] using this.symm

theorem parseUsize_natToDec (n : Nat) (h : n < usizeLim) :
    parseUsize (natToDec n) = some n := by
  obtain ⟨b, l, hbl⟩ : ∃ b l, natToDec n = b :: l := by
    cases hd : natToDec n with
    | nil => exact absurd hd (natToDec_ne_nil n)
    | cons b l => exact ⟨b, l, rfl⟩
  have hdig : isDigit b = true := natToDec_all_digit n b (by rw [hbl]; simp)
  have hb43 : ¬(b = 43) := by
    simp only [isDigit, Bool.and_eq_true, decide_eq_true_eq] at hdig
    omega
  have hall : (natToDec n).all isDigit = true := by
    rw [List.all_eq_true]
    exact natToDec_all_digit n
  simp only [parseUsize, hbl]
  rw [if_neg hb43, ← hbl]
  simp only [natToDec_ne_nil n, hall, ne_eq, not_false_iff, true_and, if_true,
    digitsToNat_natToDec, h, if_pos]

theorem intToDec_nonneg (n : Int) (h : 0 ≤ n) : intToDec n = natToDec n.toNat := by
  rw [intToDec, if_neg (by omega)]

theorem intToDec_neg (n : Int) (h : n < 0) : intToDec n = 45 :: natToDec n.natAbs := by
  rw [intToDec, if_pos h]

theorem parseI64_intToDec (n : Int) (h1 : i64min ≤ n) (h2 : n ≤ i64max) :
    parseI64 (intToDec n) = some n := by
  by_cases hneg : n < 0
  · rw [intToDec_neg n hneg]
    have hne : natToDec n.natAbs ≠ [] := natToDec_ne_nil _
    have hall : (natToDec n.natAbs).all isDigit = true := by
      rw [List.all_eq_true]; exact natToDec_all_digit _
    have hv : -((digitsToNat (natToDec n.natAbs) : Nat) : Int) = n := by
      rw [digitsToNat_natToDec]; omega
    simp only [parseI64, decide_True, Bool.true_or, if_true, hne, hall, ne_eq,
      not_false_iff, true_and, if_pos, hv]
    rw [if_pos ⟨h1, h2⟩]
  · rw [intToDec_nonneg n (by omega)]
    obtain ⟨b, l, hbl⟩ : ∃ b l, natToDec n.toNat = b :: l := by
      cases hd : natToDec n.toNat with
      | nil => exact absurd hd (natToDec_ne_nil _)
      | cons b l => exact ⟨b, l, rfl⟩
    have hdig : isDigit b = true := natToDec_all_digit _ b (by rw [hbl]; simp)
    have hb45 : (b = 45) = False := by
      simp only [isDigit, Bool.and_eq_true, decide_eq_true_eq] at hdig
      simp only [eq_iff_iff, iff_false]
      omega
    have hb43 : (b = 43) = False := by
      simp only [isDigit, Bool.and_eq_true, decide_eq_true_eq] at hdig
      simp only [eq_iff_iff, iff_false]
      omega
    have hall : (natToDec n.toNat).all isDigit = true := by
      rw [List.all_eq_true]; exact natToDec_all_digit _
    have htoNat : ((digitsToNat (natToDec n.toNat) : Nat) : Int) = n := by
      rw [digitsToNat_natToDec]; omega
    simp only [parseI64, hbl]
    simp only [hb45, hb43, decide_False, Bool.or_self, Bool.false_eq_true, if_false]
    rw [← hbl]
    simp only [natToDec_ne_nil _, hall, ne_eq, not_false_iff, true_and, if_true, htoNat]
    rw [if_pos ⟨h1, h2⟩]

theorem scanUntilE_append (pre rest : List Nat) (h : ∀ b ∈ pre, b ≠ 101) :
    scanUntilE (pre ++ 101 :: rest) = some (pre, 101 :: rest) := by
  induction pre with
  | nil => simp [scanUntilE]
  | cons b bs ih =>
    have hb : b ≠ 101 := h b (by simp)
    simp only [List.cons_append, scanUntilE, hb, if_false, List.append_eq,
      ih (fun x hx => h x (by simp [hx]))]

theorem scanLenDigits_append (pre rest : List Nat) (h : ∀ b ∈ pre, isDigit b = true) :
    scanLenDigits (pre ++ 58 :: rest) = .ok (pre, 58 :: rest) := by
  induction pre with
  | nil => simp [scanLenDigits]
  | cons b bs ih =>
    have hb : isDigit b = true := h b (by simp)
    have hb58 : ¬(b = 58) := by
      simp only [isDigit, Bool.and_eq_true, decide_eq_true_eq] at hb
      omega
    simp only [List.cons_append, scanLenDigits, hb58, if_false, hb, if_true,
      List.append_eq, ih (fun x hx => h x (by simp [hx]))]

theorem intToDec_mem (n : Int) : ∀ b ∈ intToDec n, b = 45 ∨ isDigit b = true := by
  rw [intToDec]
  split
  · intro b hb
    rcases List.mem_cons.mp hb with hb | hb
    · exact Or.inl hb
    · exact Or.inr (natToDec_all_digit _ b hb)
  · intro b hb
    exact Or.inr (natToDec_all_digit _ b hb)

theorem intToDec_no_leading_zero (n : Int) :
    ¬((intToDec n).length > 1 ∧ (intToDec n).head? = some 48) := by
  rw [intToDec]
  split
  · rintro ⟨-, hh⟩
    simp only [List.head?_cons, Option.some.injEq] at hh
    omega
  · rintro ⟨hl, hh⟩
    by_cases h0 : n.toNat = 0
    · rw [h0, natToDec] at hl
      simp at hl
    · have := natToDec_head_pos n.toNat (by omega) 48 hh
      omega

theorem intToDec_ne_neg_zero (n : Int) (h : n < 0) : intToDec n ≠ [45, 48] := by
  rw [intToDec_neg n h]
  intro hc
  have : natToDec n.natAbs = [48] := by
    injection hc with _ h2
  have := natToDec_eq_singleton_zero _ this
  omega

theorem intToDec_ne_neg_zero_nonneg (n : Int) (h : 0 ≤ n) : intToDec n ≠ [45, 48] := by
  rw [intToDec_nonneg n h]
  intro hc
  have : (45 : Nat) ∈ natToDec n.toNat := by rw [hc]; simp
  have := natToDec_all_digit n.toNat 45 this
  simp [isDigit] at this

theorem decode_integer_rt (n : Int) (rest : List Nat)
    (h1 : i64min ≤ n) (h2 : n ≤ i64max) :
    decode_integer (105 :: intToDec n ++ 101 :: rest) = .ok (n, rest) := by
  have hscan : scanUntilE (intToDec n ++ 101 :: rest) = some (intToDec n, 101 :: rest) :=
    scanUntilE_append _ _ (by
      intro b hb
      rcases intToDec_mem n b hb with hb | hb
      · omega
      · simp only [isDigit, Bool.and_eq_true, decide_eq_true_eq] at hb
        omega)
  have hnz : intToDec n ≠ [45, 48] := by
    by_cases hneg : n < 0
    · exact intToDec_ne_neg_zero n hneg
    · exact intToDec_ne_neg_zero_nonneg n (by omega)
  simp only [decode_integer, List.cons_append, if_pos rfl, hscan,
    parseI64_intToDec n h1 h2, intToDec_no_leading_zero n, if_false, hnz,
    reduceIte, if_true]

theorem take_append_self (l rest : List α) : (l ++ rest).take l.length = l := by
  induction l with
  | nil => simp
  | cons b bs ih => simp [ih]

theorem drop_append_self (l rest : List α) : (l ++ rest).drop l.length = rest := by
  induction l with
  | nil => simp
  | cons b bs ih => simp [ih]

theorem decode_byte_string_rt (bs rest : List Nat) (h : bs.length < usizeLim) :
    decode_byte_string (encode_byte_string bs ++ rest) = .ok (bs, rest) := by
  have hre : encode_byte_string bs ++ rest = natToDec bs.length ++ 58 :: (bs ++ rest) := by
    simp [encode_byte_string]
  have hscan : scanLenDigits (natToDec bs.length ++ 58 :: (bs ++ rest)) =
      .ok (natToDec bs.length, 58 :: (bs ++ rest)) :=
    scanLenDigits_append _ _ (natToDec_all_digit _)
  rw [hre]
  simp only [decode_byte_string, hscan, parseUsize_natToDec _ h, if_pos rfl,
    List.length_append, if_true]
  rw [if_pos (by simp)]
  rw [take_append_self, drop_append_self]

theorem encode_byte_string_cons (k : List Nat) :
    ∃ d t, encode_byte_string k = d :: t ∧ isDigit d = true := by
  obtain ⟨d, l, hdl⟩ : ∃ d l, natToDec k.length = d :: l := by
    cases hd : natToDec k.length with
    | nil => exact absurd hd (natToDec_ne_nil _)
    | cons d l => exact ⟨d, l, rfl⟩
  refine ⟨d, l ++ 58 :: k, ?_, natToDec_all_digit _ d (by rw [hdl]; simp)⟩
  rw [encode_byte_string, hdl]
  simp

theorem encode_value_cons (v : Value) :
    ∃ b t, encode_value v = b :: t ∧
      (b = 105 ∨ b = 108 ∨ b = 100 ∨ isDigit b = true) := by
  cases v with
  | Integer n => exact ⟨105, intToDec n ++ [101], by simp [encode_value], Or.inl rfl⟩
  | ByteString bs =>
    obtain ⟨d, t, hdt, hdig⟩ := encode_byte_string_cons bs
    exact ⟨d, t, by simp [encode_value, hdt], Or.inr (Or.inr (Or.inr hdig))⟩
  | List items =>
    exact ⟨108, encode_items items ++ [101], by simp [encode_value],
      Or.inr (Or.inl rfl)⟩
  | Dict entries =>
    exact ⟨100, encode_entries entries ++ [101], by simp [encode_value],
      Or.inr (Or.inr (Or.inl rfl))⟩

theorem encode_head_ne_e (b : Nat)
    (h : b = 105 ∨ b = 108 ∨ b = 100 ∨ isDigit b = true) : ¬(b = 101) := by
  rcases h with h | h | h | h
  · omega
  · omega
  · omega
  · simp only [isDigit, Bool.and_eq_true, decide_eq_true_eq] at h
    omega

theorem rt_fuel : ∀ fuel : Nat,
    (∀ v rest, legalVal v = true → 2 * (encode_value v).length < fuel →
      decode_value fuel (encode_value v ++ rest) = .ok (v, rest)) ∧
    (∀ items acc rest, legalList items = true →
      2 * (encode_items items).length + 1 < fuel →
      decode_list_items fuel (encode_items items ++ 101 :: rest) acc =
        .ok (.List (acc.reverse ++ items), rest)) ∧
    (∀ entries acc prev rest, legalEntries entries = true →
      keysAsc prev entries = true →
      2 * (encode_entries entries).length + 1 < fuel →
      decode_dict_entries fuel (encode_entries entries ++ 101 :: rest) acc prev =
        .ok (.Dict (acc.reverse ++ entries), rest)) := by
  intro fuel
  induction fuel with
  | zero => exact ⟨fun v rest _ h => by omega, fun i a r _ h => by omega,
      fun e a p r _ _ h => by omega⟩
  | succ f ih =>
    obtain ⟨ihV, ihL, ihD⟩ := ih
    refine ⟨?_, ?_, ?_⟩
    · intro v rest hleg hfuel
      cases v with
      | Integer n =>
        simp only [legalVal, Bool.and_eq_true, decide_eq_true_eq] at hleg
        have he : encode_value (.Integer n) ++ rest =
            105 :: (intToDec n ++ 101 :: rest) := by
          simp [encode_value]
        rw [he]
        simp only [decode_value, if_pos rfl]
        rw [show (105 :: (intToDec n ++ 101 :: rest)) =
          (105 :: intToDec n ++ 101 :: rest) from by simp]
        rw [decode_integer_rt n rest hleg.1 hleg.2]
        simp
      | ByteString bs =>
        simp only [legalVal, Bool.and_eq_true, decide_eq_true_eq] at hleg
        obtain ⟨d, t, hdt, hdig⟩ := encode_byte_string_cons bs
        have hd105 : ¬(d = 105) := by
          simp only [isDigit, Bool.and_eq_true, decide_eq_true_eq] at hdig; omega
        have hd108 : ¬(d = 108) := by
          simp only [isDigit, Bool.and_eq_true, decide_eq_true_eq] at hdig; omega
        have hd100 : ¬(d = 100) := by
          simp only [isDigit, Bool.and_eq_true, decide_eq_true_eq] at hdig; omega
        have he : encode_value (.ByteString bs) ++ rest = d :: (t ++ rest) := by
          simp [encode_value, hdt]
        rw [he]
        simp only [decode_value, hd105, hd108, hd100, if_false, hdig, if_true]
        rw [show (d :: (t ++ rest)) = (encode_byte_string bs ++ rest) from by
          simp [hdt]]
        rw [decode_byte_string_rt bs rest hleg.1]
      | List items =>
        simp only [legalVal] at hleg
        have he : encode_value (.List items) ++ rest =
            108 :: (encode_items items ++ 101 :: rest) := by
          simp [encode_value]
        have hlen : (encode_value (.List items)).length =
            (encode_items items).length + 2 := by
          simp [encode_value]
        rw [he]
        simp only [decode_value, if_pos rfl, reduceIte]
        rw [ihL items [] rest hleg (by omega)]
        simp
      | Dict entries =>
        simp only [legalVal, Bool.and_eq_true] at hleg
        have he : encode_value (.Dict entries) ++ rest =
            100 :: (encode_entries entries ++ 101 :: rest) := by
          simp [encode_value]
        have hlen : (encode_value (.Dict entries)).length =
            (encode_entries entries).length + 2 := by
          simp [encode_value]
        rw [he]
        simp only [decode_value, if_pos rfl, reduceIte]
        rw [ihD entries [] none rest hleg.2 hleg.1 (by omega)]
        simp
    · intro items acc rest hleg hfuel
      cases items with
      | nil =>
        simp only [encode_items, List.nil_append]
        simp only [decode_list_items, if_pos rfl]
        simp
      | cons v vs =>
        simp only [legalList, Bool.and_eq_true] at hleg
        obtain ⟨b, t, hbt, hbk⟩ := encode_value_cons v
        have hb101 : ¬(b = 101) := encode_head_ne_e b hbk
        have he : encode_items (v :: vs) ++ 101 :: rest =
            b :: (t ++ (encode_items vs ++ 101 :: rest)) := by
          simp [encode_items, hbt]
        have hlen : (encode_items (v :: vs)).length =
            (encode_value v).length + (encode_items vs).length := by
          simp [encode_items]
        have hvpos : 1 ≤ (encode_value v).length := by
          rw [hbt]; simp
        rw [he]
        simp only [decode_list_items, hb101, if_false]
        rw [show (b :: (t ++ (encode_items vs ++ 101 :: rest))) =
          (encode_value v ++ (encode_items vs ++ 101 :: rest)) from by simp [hbt]]
        simp only [ihV v (encode_items vs ++ 101 :: rest) hleg.1 (by omega),
          ihL vs (v :: acc) rest hleg.2 (by omega)]
        simp
    · intro entries acc prev rest hleg hasc hfuel
      cases entries with
      | nil =>
        simp only [encode_entries, List.nil_append]
        simp only [decode_dict_entries, if_pos rfl]
        simp
      | cons kv es =>
        obtain ⟨k, v⟩ := kv
        simp only [legalEntries, Bool.and_eq_true, decide_eq_true_eq] at hleg
        obtain ⟨⟨⟨hklen, _⟩, hlegv⟩, hleges⟩ := hleg
        have hko : keyOk prev k = true ∧ keysAsc (some k) es = true := by
          cases prev with
          | none => exact ⟨rfl, by simpa [keysAsc] using hasc⟩
          | some p =>
            simp only [keysAsc, Bool.and_eq_true] at hasc
            exact ⟨hasc.1, hasc.2⟩
        obtain ⟨d, t, hdt, hdig⟩ := encode_byte_string_cons k
        have hd101 : ¬(d = 101) := by
          simp only [isDigit, Bool.and_eq_true, decide_eq_true_eq] at hdig; omega
        have he : encode_entries ((k, v) :: es) ++ 101 :: rest =
            d :: (t ++ (encode_value v ++ (encode_entries es ++ 101 :: rest))) := by
          simp [encode_entries, hdt]
        have hlen : (encode_entries ((k, v) :: es)).length =
            (encode_byte_string k).length + (encode_value v).length +
              (encode_entries es).length := by
          simp [encode_entries]
          omega
        have hkpos : 1 ≤ (encode_byte_string k).length := by
          rw [hdt]; simp
        rw [he]
        simp only [decode_dict_entries, hd101, if_false, hdig, if_true]
        rw [show (d :: (t ++ (encode_value v ++ (encode_entries es ++ 101 :: rest)))) =
          (encode_byte_string k ++ (encode_value v ++ (encode_entries es ++ 101 :: rest)))
          from by simp [hdt]]
        rw [decode_byte_string_rt k _ hklen]
        simp only [hko.1, if_true]
        simp only [ihV v (encode_entries es ++ 101 :: rest) hlegv (by omega),
          ihD es ((k, v) :: acc) (some k) rest hleges hko.2 (by omega)]
        simp

theorem byteLexLt_asymm : ∀ a b : List Nat, byteLexLt a b = true → byteLexLt b a = false := by
  intro a
  induction a with
  | nil =>
    intro b h
    cases b with
    | nil => simp [byteLexLt] at h
    | cons y ys => simp [byteLexLt]
  | cons x xs ih =>
    intro b h
    cases b with
    | nil => simp [byteLexLt] at h
    | cons y ys =>
      simp only [byteLexLt] at h ⊢
      by_cases h1 : x < y
      · have h2 : ¬(y < x) := by omega
        simp [h1, h2]
      · by_cases h2 : y < x
        · simp [h1, h2] at h
        · have hxy : x = y := by omega
          subst hxy
          simp only [lt_irrefl, if_false] at h ⊢
          exact ih ys h

theorem ascByKey_insert (p : List Nat × List Nat) :
    ∀ l, ascByKey l = true → ascByKey (insertByKey p l) = true := by
  intro l
  induction l with
  | nil => intro _; simp [insertByKey, ascByKey]
  | cons q qs ih =>
    intro h
    by_cases hq : byteLexLt q.1 p.1 = true
    · rw [insertByKey, if_pos hq]
      cases qs with
      | nil =>
        simp [insertByKey, ascByKey, byteLexLt_asymm _ _ hq]
      | cons r rs =>
        have hqr : byteLexLt r.1 q.1 = false := by
          simp only [ascByKey, Bool.and_eq_true, Bool.not_eq_true'] at h
          exact h.1
        have hchain : ascByKey (r :: rs) = true := by
          simp only [ascByKey, Bool.and_eq_true] at h
          exact h.2
        rw [insertByKey]
        by_cases hr : byteLexLt r.1 p.1 = true
        · rw [if_pos hr]
          have hrec := ih hchain
          rw [insertByKey, if_pos hr] at hrec
          simp only [ascByKey, Bool.and_eq_true, Bool.not_eq_true']
          exact ⟨hqr, hrec⟩
        · rw [if_neg hr]
          have hr' : byteLexLt r.1 p.1 = false := by
            cases hb : byteLexLt r.1 p.1 with
            | false => rfl
            | true => exact absurd hb hr
          simp only [ascByKey, Bool.and_eq_true, Bool.not_eq_true']
          exact ⟨byteLexLt_asymm _ _ hq, hr', hchain⟩
    · rw [insertByKey, if_neg hq]
      have hq' : byteLexLt q.1 p.1 = false := by
        cases hb : byteLexLt q.1 p.1 with
        | false => rfl
        | true => exact absurd hb hq
      cases qs with
      | nil => simp [ascByKey, hq']
      | cons r rs =>
        simp only [ascByKey, Bool.and_eq_true, Bool.not_eq_true'] at h ⊢
        exact ⟨hq', h.1, h.2⟩

theorem ascByKey_sortByKey : ∀ l, ascByKey (sortByKey l) = true := by
  intro l
  induction l with
  | nil => rfl
  | cons p ps ih => exact ascByKey_insert p _ ih

/-- C1: for every legal bencode `Value` (any of the four variants, `Dict`
included), decoding `encode v` with `Decoder::decode_value` succeeds,
returns a value equal to `v`, and consumes the entire encoded buffer
(the remaining cursor suffix is empty). -/
theorem C1_encode_decode_roundtrip (v : Value) (h : legalVal v = true) :
    decode_top (encode v) = .ok (v, []) := by
  have hr := (rt_fuel (2 * (encode v).length + 1)).1 v [] h (by simp [encode])
  simpa [decode_top, encode] using hr

/-- C1 witness: the round trip at a concrete value exercising all four
variants, with the legality hypothesis discharged by evaluation. -/
theorem C1_encode_decode_roundtrip_witness :
    legalVal (.Dict [([97, 97], .Integer 2),
      ([98, 98], .List [.ByteString [120], .Integer (-5)])]) = true ∧
    decode_top (encode (.Dict [([97, 97], .Integer 2),
      ([98, 98], .List [.ByteString [120], .Integer (-5)])])) =
      .ok ((.Dict [([97, 97], .Integer 2),
        ([98, 98], .List [.ByteString [120], .Integer (-5)])]), []) :=
  ⟨by decide, C1_encode_decode_roundtrip _ (by decide)⟩

/-- C2 counterexample: the claim's two example inputs are themselves
malformed bencode — the `3:` length prefix makes the key swallow the
following `i`, after which the value position holds `1e...` / `2e...`,
whose byte-string scan hits the non-digit `e` (101) — so both decodes fail
with `InvalidCharacter 101`, not with `UnsortedDictKeys` / success as the
claim states. -/
theorem C2_counterexample :
    decode_top (strBytes "d3:bbi1e3:aai2ee") = .err (.InvalidCharacter 101) ∧
    decode_top (strBytes "d3:aai2e3:bbi1ee") = .err (.InvalidCharacter 101) :=
  ⟨rfl, rfl⟩

/-- C2 (amended): with well-formed keys (`2:` length prefixes), decoding
`d2:bbi1e2:aai2ee` (keys out of byte-lexicographic order) fails with
`UnsortedDictKeys` and decoding `d2:aai2e2:bbi1ee` succeeds; in general a
decoded dictionary key that does not compare strictly greater than the
previous key makes `Decoder::decode_dict` return `UnsortedDictKeys`, and a
lookahead that is not a byte string yields `InvalidDictKey`. -/
theorem C2_sorted_key_validation :
    decode_top (strBytes "d2:bbi1e2:aai2ee") = .err .UnsortedDictKeys ∧
    decode_top (strBytes "d2:aai2e2:bbi1ee") =
      .ok (.Dict [([97, 97], .Integer 2), ([98, 98], .Integer 1)], []) ∧
    (∀ f b tl acc p k r2, isDigit b = true →
      decode_byte_string (b :: tl) = .ok (k, r2) → byteLexLt p k = false →
      decode_dict_entries (f + 1) (b :: tl) acc (some p) = .err .UnsortedDictKeys) ∧
    (∀ f b tl acc prev, ¬(b = 101) → isDigit b = false →
      decode_dict_entries (f + 1) (b :: tl) acc prev = .err .InvalidDictKey) := by
  refine ⟨rfl, rfl, ?_, ?_⟩
  · intro f b tl acc p k r2 hdig hbs hlt
    have hb101 : ¬(b = 101) := by
      simp only [isDigit, Bool.and_eq_true, decide_eq_true_eq] at hdig
      omega
    simp only [decode_dict_entries, hb101, if_false, hdig, if_true, hbs]
    simp [keyOk, hlt]
  · intro f b tl acc prev hb101 hdig
    simp [decode_dict_entries, hb101, hdig]

/-- C2 witness: the general clauses instantiated concretely — a key `a`
after previous key `b` is rejected as unsorted, and an `x` lookahead is
rejected as an invalid dictionary key. -/
theorem C2_sorted_key_validation_witness :
    decode_dict_entries 1 [49, 58, 97] [] (some [98]) = .err .UnsortedDictKeys ∧
    decode_dict_entries 1 [120] [] none = .err .InvalidDictKey :=
  ⟨C2_sorted_key_validation.2.2.1 0 49 [58, 97] [] [98] [97] [] (by decide) rfl
      (by decide),
    C2_sorted_key_validation.2.2.2 0 120 [] [] none (by decide) (by decide)⟩

/-- C3: evaluation of the source decoder at the failing input — the body of
`Decoder::decode_dict` is `todo!()`, so `decode_value` on the dictionary
input `de` (indeed on any input starting with `d`) panics instead of
returning an `Error` result. -/
theorem C3_decode_dict_panics :
    decode_value_src 1 (strBytes "de") = .panicked := rfl

/-- C4 counterexample: through the typed path, `Deserializer::parse_integer`
accepts `i03e` (yielding 3) and `-0` (`i-0e`, yielding 0) instead of failing
with `InvalidInteger` as the claim states. -/
theorem C4_counterexample :
    parse_integer (strBytes "i03e") = .ok (3, []) ∧
    parse_integer (strBytes "i-0e") = .ok (0, []) ∧
    ¬(parse_integer (strBytes "i03e") = .error .InvalidInteger) := by
  refine ⟨rfl, rfl, by decide⟩

/-- C4 (amended): encoding never produces leading zeros or `-0` (the digit
run of an encoded integer never starts with `0` unless it is the single
digit `0`, and is never `-0`), and the raw decoder rejects `i03e`, `i-0e`
and `ie` with `InvalidInteger`; the typed `Deserializer::parse_integer`
applies only the `i64`-parse validation: it rejects the empty run `ie` with
`InvalidInteger` but accepts `i03e` (as 3) and `i-0e` (as 0). -/
theorem C4_canonical_integers :
    (∀ n : Int, ¬((intToDec n).length > 1 ∧ (intToDec n).head? = some 48) ∧
      intToDec n ≠ [45, 48]) ∧
    decode_integer (strBytes "i03e") = .error .InvalidInteger ∧
    decode_integer (strBytes "i-0e") = .error .InvalidInteger ∧
    decode_integer (strBytes "ie") = .error .InvalidInteger ∧
    parse_integer (strBytes "ie") = .error .InvalidInteger ∧
    parse_integer (strBytes "i03e") = .ok (3, []) ∧
    parse_integer (strBytes "i-0e") = .ok (0, []) := by
  refine ⟨?_, rfl, rfl, rfl, rfl, rfl, rfl⟩
  intro n
  refine ⟨intToDec_no_leading_zero n, ?_⟩
  by_cases hneg : n < 0
  · exact intToDec_ne_neg_zero n hneg
  · exact intToDec_ne_neg_zero_nonneg n (by omega)

/-- C5 counterexample: the emitted entries are not in ascending
byte-lexicographic order of the raw keys — `serialize_key` stages each key
as its full bencode encoding (`len:key`) and `end()` sorts by those encoded
bytes, so a record with fields `b`, `aa` emits `d1:bi1e2:aai2ee` (`1:b`
before `2:aa` because 49 < 50) even though the raw key `aa` compares
strictly below `b`; the codec's own raw validator rejects that output with
`UnsortedDictKeys`. -/
theorem C5_counterexample :
    serialize (.strct [([98], .int 1), ([97, 97], .int 2)]) =
      .ok (strBytes "d1:bi1e2:aai2ee") ∧
    byteLexLt [97, 97] [98] = true ∧
    decode_top (strBytes "d1:bi1e2:aai2ee") = .err .UnsortedDictKeys := by
  refine ⟨?_, rfl, rfl⟩
  simp [serialize, serializeFields, serialize_bytes, serialize_i64, intToDec,
    natToDec, strBytes, sortByKey, insertByKey, flattenEntries, byteLexLt,
    digitsToNat]

/-- C5 (amended): the typed push encoder emits the dictionary entries of a
record sorted into ascending byte-lexicographic order of their staged
encoded key byte strings (`len:key`), regardless of the declaration order
of the fields; this coincides with raw-key order when the keys have equal
length — in particular a record whose fields are declared in order `zebra`,
`apple` encodes to exactly `d5:applei2e5:zebrai1ee` — but not for
mixed-length keys. -/
theorem C5_struct_sorted_keys :
    serialize (.strct [(strBytes "zebra", .int 1), (strBytes "apple", .int 2)]) =
      .ok (strBytes "d5:applei2e5:zebrai1ee") ∧
    (∀ fields st, serializeFields fields ⟨[], none⟩ = .ok st →
      serialize (.strct fields) =
        .ok (100 :: flattenEntries (sortByKey st.entries) ++ [101]) ∧
      ascByKey (sortByKey st.entries) = true) := by
  refine ⟨by simp [serialize, serializeFields, serialize_bytes, serialize_i64,
    intToDec, natToDec, strBytes, sortByKey, insertByKey, flattenEntries,
    byteLexLt, digitsToNat], ?_⟩
  intro fields st hok
  constructor
  · simp [serialize, hok]
  · exact ascByKey_sortByKey st.entries

/-- C5 witness: the amended general clause instantiated at a concrete
one-field record, with the staging hypothesis discharged by evaluation. -/
theorem C5_struct_sorted_keys_witness :
    serialize (.strct [([97], .int 1)]) =
      .ok (100 :: flattenEntries (sortByKey [([49, 58, 97], [105, 49, 101])]) ++ [101]) ∧
    ascByKey (sortByKey [([49, 58, 97], [105, 49, 101])]) = true :=
  C5_struct_sorted_keys.2 [([97], .int 1)] ⟨[([49, 58, 97], [105, 49, 101])], none⟩
    (by simp [serializeFields, serialize, serialize_bytes, serialize_i64,
      intToDec, natToDec, digitsToNat])

/-- C6 counterexample: re-encoding a record whose optional field is `None`
does not omit the key — `serialize_field` stages the key bytes with an empty
value buffer, so the one-field record with `comment = None` encodes to
`d7:commente` (key present, no value bytes), which differs from the
encoding of the record without the field (`de`). -/
theorem C6_counterexample :
    serialize (.strct [(strBytes "comment", .optNone)]) =
      .ok (strBytes "d7:commente") ∧
    serialize (.strct [(strBytes "comment", .optNone)]) ≠
      serialize (.strct []) := by
  have h1 : serialize (.strct [(strBytes "comment", .optNone)]) =
      .ok (strBytes "d7:commente") := by
    simp [serialize, serializeFields, serialize_bytes, serialize_i64, intToDec,
      natToDec, strBytes, sortByKey, insertByKey, flattenEntries, digitsToNat]
  have h2 : serialize (.strct ([] : List (List Nat × SerValue))) = .ok [100, 101] := by
    simp [serialize, serializeFields, sortByKey, flattenEntries]
  refine ⟨h1, ?_⟩
  rw [h1, h2]
  decide

/-- C6 (amended): decoding a dictionary in which the optional field's key is
absent succeeds with the field resolved to `None`, but re-encoding a record
with a `None` field emits the field's key bytes followed by an empty value
(for the record `{ a : i64, c : Option<i64> }` with `c = None`:
`d1:ai5e1:ce`) — the value bytes are omitted, the key bytes are not. -/
theorem C6_optional_field :
    decode_record (strBytes "d1:ai5ee") = .ok ((5, none), []) ∧
    decode_record (strBytes "d1:ai5e1:ci7ee") = .ok ((5, some 7), []) ∧
    serialize (.strct [([97], .int 5), ([99], .optNone)]) =
      .ok (strBytes "d1:ai5e1:ce") :=
  ⟨rfl, rfl, by
    simp [serialize, serializeFields, serialize_bytes, serialize_i64, intToDec,
      natToDec, strBytes, sortByKey, insertByKey, flattenEntries, byteLexLt,
      digitsToNat]⟩

/-- C7: serializing any float (the value is never inspected) or any
enum-variant shape fails with the fixed unsupported message, and
deserializing into a float or enum target fails the same way on every
input; no approximation is produced. -/
theorem C7_rejected_shapes :
    (∀ d bits, serialize (.float d bits) =
      .error (.Message "bencode does not support floats")) ∧
    (∀ kind name, serialize (.enumVariant kind name) =
      .error (.Message "bencode does not support enums")) ∧
    (∀ input, deserialize_float input =
      .error (.Message "bencode does not support floats")) ∧
    (∀ input, deserialize_enum input =
      .error (.Message "bencode does not support enums")) :=
  ⟨fun _ _ => rfl, fun _ _ => rfl, fun _ => rfl, fun _ => rfl⟩

/-- C8 counterexample: visiting two keys in a row is not an error — after a
first `serialize_key` (pending key `1:a`), a second `serialize_key` succeeds
and silently replaces the pending key with `1:b`. -/
theorem C8_counterexample :
    (SortedMapSerializer.serialize_key ⟨[], none⟩ (.bytes [97])).bind
      (fun st1 => st1.serialize_key (.bytes [98])) =
      .ok ⟨[], some [49, 58, 98]⟩ := by
  simp [SortedMapSerializer.serialize_key, serialize, serialize_bytes, natToDec,
    digitsToNat, Except.bind]

/-- C8 (amended): `serialize_value` with no pending key is reported as the
`Message` error "serialize_value called before serialize_key", but
`serialize_key` with a key already pending succeeds and silently replaces
the pending key rather than erroring. -/
theorem C8_key_value_discipline :
    (∀ entries v, SortedMapSerializer.serialize_value ⟨entries, none⟩ v =
      .error (.Message "serialize_value called before serialize_key")) ∧
    (∀ entries ck bs, SortedMapSerializer.serialize_key ⟨entries, ck⟩ (.bytes bs) =
      .ok ⟨entries, some (serialize_bytes bs)⟩) :=
  ⟨fun _ _ => rfl, fun entries ck bs => by
    simp [SortedMapSerializer.serialize_key, serialize]⟩

/-- C9: every narrowing typed integer decode converts the parsed `i64` with
a wrapping (`as`) cast — value modulo `2^w`, sign reinterpreted for unsigned
targets — and never reports a range error: whenever `parse_integer`
succeeds, each `deserialize_*` succeeds with the truncated value; in
particular `i300e` into a `u8` target yields 44. -/
theorem C9_wrapping_casts :
    (∀ input n r, parse_integer input = .ok (n, r) →
      deserialize_i8 input = .ok (castI8 n, r) ∧
      deserialize_i16 input = .ok (castI16 n, r) ∧
      deserialize_i32 input = .ok (castI32 n, r) ∧
      deserialize_u8 input = .ok (castU8 n, r) ∧
      deserialize_u16 input = .ok (castU16 n, r) ∧
      deserialize_u32 input = .ok (castU32 n, r) ∧
      deserialize_u64 input = .ok (castU64 n, r)) ∧
    deserialize_u8 (strBytes "i300e") = .ok (44, []) ∧
    deserialize_u8 (strBytes "i-1e") = .ok (255, []) ∧
    deserialize_i8 (strBytes "i200e") = .ok (-56, []) := by
  refine ⟨?_, by decide, by decide, by decide⟩
  intro input n r h
  exact ⟨by simp [deserialize_i8, h], by simp [deserialize_i16, h],
    by simp [deserialize_i32, h], by simp [deserialize_u8, h],
    by simp [deserialize_u16, h], by simp [deserialize_u32, h],
    by simp [deserialize_u64, h]⟩

/-- C9 witness: the general clause at the concrete input `i-2e` decoded into
a `u64` target, the hypothesis discharged by evaluation: the result is the
sign-reinterpreted `2^64 - 2`. -/
theorem C9_wrapping_casts_witness :
    deserialize_u64 (strBytes "i-2e") = .ok (18446744073709551614, []) := by
  rw [(C9_wrapping_casts.1 (strBytes "i-2e") (-2) [] (by decide)).2.2.2.2.2.2]
  decide

/-- C10: `to_bytes` on a top-level `None` and on the unit value succeeds
with an empty byte vector, which is not a legal bencode value: raw decoding
of the empty buffer fails with `UnexpectedEof`. -/
theorem C10_empty_serialization :
    to_bytes .optNone = .ok [] ∧ to_bytes .unit = .ok [] ∧
    decode_top [] = .err .UnexpectedEof :=
  ⟨rfl, rfl, rfl⟩

end Trendt
